import Mathlib

/-!
Verification of "the-gargantuan-backend" against its specification.

The repository's core subsystem (spec sections 3 through 5) is a durable
job queue driving a caption-synchronized media-rendering pipeline.  This
file shallowly embeds the relevant JavaScript functions:

* `src/server.js` — the video job queue: `backoffMs`, `MAX_RETRIES`,
  enqueue (`POST /api/generate-video`), worker tick (`processVideoOnce`);
  `src/unnamed/part_004` additionally has a force-process endpoint
  (`POST /api/video/process-now`).
* `src/unnamed/part_004` — the shorts/captions variant: `mergeSegments`,
  `escDrawtext`, `transcribeWhisperOrMock`, `renderShortFromS3`'s output
  key and filter-graph construction, and the shorts worker `workerOnce`.

Modelling conventions:

* JavaScript strings holding user text are modelled as `List Char` so that
  trimming, wrapping widths and escaping can be reasoned about; opaque
  identifiers (job ids, S3 object keys that are only carried around) are
  Lean `String`s.
* JavaScript numbers used as timestamps or media times are modelled as
  `Int`: none of the embedded code paths perform non-integral arithmetic
  on them (they are carried through, compared, added).
* Object maps keyed by job id (`jobs.items`) are association lists with
  JavaScript assignment semantics (`insertA` overwrites in place).
* External effects (S3, ffmpeg, Whisper) are parameters: a render is a
  function from its inputs to `Except error result`, matching the spec's
  treatment of collaborators as interfaces.
-/

namespace Gargantuan

/-! ## Characters and trimming

`String.prototype.trim` strips whitespace from both ends.  The modelled
whitespace set covers the characters that can actually occur in the
embedded code paths (space, tab, newline, carriage return). -/

def isWs (c : Char) : Bool :=
  (c == ' ') || (c == '\t') || (c == '\n') || (c == '\r')

/-- Strip leading whitespace, as the left half of `trim`. -/
def trimL (s : List Char) : List Char := s.dropWhile isWs

/-- Strip trailing whitespace, as the right half of `trim`. -/
def trimR (s : List Char) : List Char := (s.reverse.dropWhile isWs).reverse

/-- Model of JavaScript `s.trim()` on `List Char`. -/
def trim (s : List Char) : List Char := trimR (trimL s)

/-- The first character, if any, is not whitespace. -/
def noWsHead (s : List Char) : Bool :=
  match s with
  | [] => true
  | c :: _ => !isWs c

/-- The last character, if any, is not whitespace. -/
def noWsLast (s : List Char) : Bool := noWsHead s.reverse

/-- Maximal whitespace-free runs of a string, used to talk about "words". -/
def words (s : List Char) : List (List Char) :=
  (s.splitOnP isWs).filter (fun w => w ≠ [])

/-! ## Caption segments

`Seg` models both Whisper's raw `{start, end, text}` segments and the
merged caption lines (the code uses the same record shape for both).  The
field `stop` models the JavaScript `end` property (`end` is a Lean
keyword). -/

structure Seg where
  start : Int
  stop : Int
  text : List Char
deriving DecidableEq, Repr

/-! ## mergeSegments (src/unnamed/part_004, lines 510-528)

```js
function mergeSegments(segments, maxChars) {
  const out = []
  let buf = ''
  let start = segments.length ? segments[0].start : 0
  for (const s of segments) {
    const chunk = (s.text || '').trim()
    if (!chunk) continue
    const tryAdd = (buf ? buf + ' ' : '') + chunk
    if (tryAdd.length > maxChars && buf) {
      out.push({ start, end: s.start, text: buf.trim() })
      buf = chunk
      start = s.start
    } else {
      buf = tryAdd
    }
  }
  if (buf) out.push({ start, end: segments.length ? segments[segments.length-1].end : start + 3, text: buf.trim() })
  return out
}
```

`mergeGo m lastEnd segs buf start` is the loop with accumulator `buf` and
current `start`; `lastEnd` is the end used by the trailing flush (the last
input segment's `end`; the `start + 3` fallback only applies when the
input list is empty, in which case `buf` is empty and nothing is pushed).
`trim s.text` plays `chunk` and `buf ++ ' ' :: trim s.text` plays
`tryAdd`; `(buf ? ... : ...)` and `&& buf` are the `buf = []` tests. -/

def mergeGo (m : Nat) (lastEnd : Int) : List Seg → List Char → Int → List Seg
  | [], buf, start =>
      if buf = [] then [] else [⟨start, lastEnd, trim buf⟩]
  | s :: rest, buf, start =>
      if trim s.text = [] then
        mergeGo m lastEnd rest buf start
      else if (if buf = [] then trim s.text else buf ++ ' ' :: trim s.text).length > m ∧ buf ≠ [] then
        ⟨start, s.start, trim buf⟩ :: mergeGo m lastEnd rest (trim s.text) s.start
      else
        mergeGo m lastEnd rest (if buf = [] then trim s.text else buf ++ ' ' :: trim s.text) start

/-- End time used by the trailing flush: the last segment's `end`, with the
(dead) `start + 3` fallback for an empty input list. -/
def lastStop (L : List Seg) (dflt : Int) : Int :=
  match L.getLast? with
  | some s => s.stop
  | none => dflt

/-- Model of `mergeSegments(segments, maxChars)`. -/
def mergeSegments (segments : List Seg) (maxChars : Nat) : List Seg :=
  mergeGo maxChars
    (lastStop segments ((match segments with | [] => (0 : Int) | s :: _ => s.start) + 3))
    segments []
    (match segments with | [] => (0 : Int) | s :: _ => s.start)

/-! ## backoffMs (src/server.js line 230, src/unnamed/part_004 line 384)

```js
const MAX_RETRIES = 3
function backoffMs(attempt){ return Math.min(60000, 2000 * Math.pow(2, attempt)) }
```
All values that can be attained are exact in IEEE doubles, so `Nat`
faithfully reproduces the JavaScript arithmetic. -/

def MAX_RETRIES : Nat := 3

def backoffMs (attempt : Nat) : Nat := min 60000 (2000 * 2 ^ attempt)

/-! ### Lemmas about trimming -/

theorem noWsHead_dropWhile (l : List Char) : noWsHead (l.dropWhile isWs) = true := by
  induction l with
  | nil => rfl
  | cons c t ih =>
    by_cases hc : isWs c = true
    · simpa [List.dropWhile_cons, hc] using ih
    · simp [List.dropWhile_cons, hc, noWsHead]

theorem trimL_eq_self {s : List Char} (h : noWsHead s = true) : trimL s = s := by
  cases s with
  | nil => rfl
  | cons c t =>
    simp only [noWsHead, Bool.not_eq_true'] at h
    simp [trimL, List.dropWhile_cons, h]

theorem trimR_eq_self {s : List Char} (h : noWsLast s = true) : trimR s = s := by
  have h2 : trimL s.reverse = s.reverse := trimL_eq_self h
  unfold trimL at h2
  rw [trimR, h2, List.reverse_reverse]

theorem trim_eq_self {s : List Char} (h1 : noWsHead s = true) (h2 : noWsLast s = true) :
    trim s = s := by
  rw [trim, trimL_eq_self h1, trimR_eq_self h2]

theorem dropWhile_suffix_decomp (l : List Char) : ∃ t, l = t ++ l.dropWhile isWs := by
  induction l with
  | nil => exact ⟨[], rfl⟩
  | cons c t ih =>
    by_cases hc : isWs c = true
    · obtain ⟨u, hu⟩ := ih
      exact ⟨c :: u, by rw [List.dropWhile_cons]; simp [hc]; exact hu⟩
    · exact ⟨[], by simp [List.dropWhile_cons, hc]⟩

theorem noWsHead_append_left {a b : List Char} (ha : a ≠ []) :
    noWsHead (a ++ b) = noWsHead a := by
  cases a with
  | nil => exact absurd rfl ha
  | cons c t => rfl

theorem noWsHead_trimR {s : List Char} (h : noWsHead s = true) :
    noWsHead (trimR s) = true := by
  obtain ⟨t, ht⟩ := dropWhile_suffix_decomp s.reverse
  have hs : s = trimR s ++ t.reverse := by
    conv_lhs => rw [← s.reverse_reverse, ht]
    rw [List.reverse_append]
    rfl
  by_cases hr : trimR s = []
  · rw [hr]; rfl
  · rw [hs, noWsHead_append_left hr] at h
    exact h

theorem noWsHead_trim (s : List Char) : noWsHead (trim s) = true :=
  noWsHead_trimR (noWsHead_dropWhile s)

theorem noWsLast_trim (s : List Char) : noWsLast (trim s) = true := by
  unfold noWsLast trim trimR
  rw [List.reverse_reverse]
  exact noWsHead_dropWhile _

theorem trim_trim (s : List Char) : trim (trim s) = trim s :=
  trim_eq_self (noWsHead_trim s) (noWsLast_trim s)

theorem length_trimL_le (s : List Char) : (trimL s).length ≤ s.length := by
  obtain ⟨t, ht⟩ := dropWhile_suffix_decomp s
  conv_rhs => rw [ht]
  simp [trimL]

theorem length_trimR_le (s : List Char) : (trimR s).length ≤ s.length := by
  obtain ⟨t, ht⟩ := dropWhile_suffix_decomp s.reverse
  have h2 := congrArg List.length ht
  simp only [List.length_reverse, List.length_append] at h2
  simp only [trimR, List.length_reverse]
  omega

theorem length_trim_le (s : List Char) : (trim s).length ≤ s.length :=
  le_trans (length_trimR_le _) (length_trimL_le _)

theorem noWsLast_append {a b : List Char} (hb : b ≠ []) :
    noWsLast (a ++ b) = noWsLast b := by
  unfold noWsLast
  rw [List.reverse_append]
  exact noWsHead_append_left (by simpa using hb)

/-! ### Shape of mergeSegments output

A produced line list is `Good`: consecutive lines chain end-to-start, two
consecutive texts together always overflow the bound (which is exactly why
they were flushed separately), and every text is nonempty with no
whitespace at either end. -/

def adjacent (m : Nat) (a b : Seg) : Prop :=
  a.stop = b.start ∧ m < a.text.length + 1 + b.text.length

def TightText (l : Seg) : Prop :=
  l.text ≠ [] ∧ noWsHead l.text = true ∧ noWsLast l.text = true

def Good (m : Nat) (L : List Seg) : Prop :=
  List.Chain' (adjacent m) L ∧ ∀ l ∈ L, TightText l

theorem mergeGo_est (m : Nat) (le : Int) :
    ∀ (segs : List Seg) (buf : List Char) (start : Int),
      buf ≠ [] → noWsHead buf = true → noWsLast buf = true →
      ∃ l₀ L', mergeGo m le segs buf start = l₀ :: L' ∧
        l₀.start = start ∧ buf.length ≤ l₀.text.length ∧ Good m (l₀ :: L') := by
  intro segs
  induction segs with
  | nil =>
    intro buf start hne hH hL
    refine ⟨⟨start, le, buf⟩, [], ?_, rfl, le_refl _, ?_, ?_⟩
    · simp [mergeGo, hne, trim_eq_self hH hL]
    · exact List.chain'_singleton _
    · intro l hl
      simp only [List.mem_singleton] at hl
      subst hl
      exact ⟨hne, hH, hL⟩
  | cons s rest ih =>
    intro buf start hne hH hL
    by_cases hc : trim s.text = []
    · obtain ⟨l₀, L', hEq, h1, h2, h3⟩ := ih buf start hne hH hL
      exact ⟨l₀, L', by simp [mergeGo, hc, hEq], h1, h2, h3⟩
    · by_cases hov : (buf ++ ' ' :: trim s.text).length > m
      · -- the next chunk overflows: flush the buffer as a line
        obtain ⟨l₁, L'', hEq, hStart, hLen, hGood⟩ :=
          ih (trim s.text) s.start hc (noWsHead_trim _) (noWsLast_trim _)
        have hcond : ((if buf = [] then trim s.text
            else buf ++ ' ' :: trim s.text).length > m ∧ buf ≠ []) := by
          rw [if_neg hne]; exact ⟨hov, hne⟩
        have hstep : mergeGo m le (s :: rest) buf start
            = ⟨start, s.start, buf⟩ :: l₁ :: L'' := by
          simp only [mergeGo]
          rw [if_neg hc, if_pos hcond, trim_eq_self hH hL, hEq]
        refine ⟨⟨start, s.start, buf⟩, l₁ :: L'', hstep, rfl, le_refl _, ?_, ?_⟩
        · rw [List.chain'_cons]
          refine ⟨⟨hStart.symm, ?_⟩, hGood.1⟩
          show m < buf.length + 1 + l₁.text.length
          simp only [List.length_append, List.length_cons] at hov
          omega
        · intro l hl
          rcases List.mem_cons.mp hl with h | h
          · subst h; exact ⟨hne, hH, hL⟩
          · exact hGood.2 l h
      · -- the chunk still fits: it is appended to the buffer
        have hb' : buf ++ ' ' :: trim s.text ≠ [] := by simp
        have hH' : noWsHead (buf ++ ' ' :: trim s.text) = true := by
          rw [noWsHead_append_left hne]; exact hH
        have hL' : noWsLast (buf ++ ' ' :: trim s.text) = true := by
          rw [noWsLast_append (List.cons_ne_nil _ _),
            show (' ' :: trim s.text) = [' '] ++ trim s.text from rfl,
            noWsLast_append hc]
          exact noWsLast_trim _
        obtain ⟨l₀, L', hEq, hStart, hLen, hGood⟩ := ih _ start hb' hH' hL'
        have hcond : ¬((if buf = [] then trim s.text
            else buf ++ ' ' :: trim s.text).length > m ∧ buf ≠ []) := by
          rw [if_neg hne]; exact fun h => hov h.1
        refine ⟨l₀, L', ?_, hStart, ?_, hGood⟩
        · simp only [mergeGo]
          rw [if_neg hc, if_neg hcond, if_neg hne, hEq]
        · simp only [List.length_append, List.length_cons] at hLen
          omega

theorem mergeGo_good_nilbuf (m : Nat) (le : Int) :
    ∀ (segs : List Seg) (start : Int), Good m (mergeGo m le segs [] start) := by
  intro segs
  induction segs with
  | nil =>
    intro start
    simp only [mergeGo, if_pos rfl]
    exact ⟨List.chain'_nil, by simp⟩
  | cons s rest ih =>
    intro start
    by_cases hc : trim s.text = []
    · simpa [mergeGo, hc] using ih start
    · obtain ⟨l₀, L', hEq, -, -, hGood⟩ :=
        mergeGo_est m le rest (trim s.text) start hc (noWsHead_trim _) (noWsLast_trim _)
      have hstep : mergeGo m le (s :: rest) [] start
          = mergeGo m le rest (trim s.text) start := by
        simp [mergeGo, hc]
      rw [hstep, hEq]
      exact hGood

theorem mergeGo_fix (m : Nat) (d : Int) :
    ∀ (rest : List Seg) (l : Seg), Good m (l :: rest) →
      mergeGo m (lastStop (l :: rest) d) rest l.text l.start = l :: rest := by
  intro rest
  induction rest with
  | nil =>
    intro l hG
    obtain ⟨-, hT⟩ := hG
    obtain ⟨hne, hH, hL⟩ := hT l (by simp)
    have h1 : lastStop [l] d = l.stop := by simp [lastStop]
    simp only [mergeGo, if_neg hne, h1, trim_eq_self hH hL]
  | cons l₂ rest' ih =>
    intro l hG
    obtain ⟨hchain, hT⟩ := hG
    rw [List.chain'_cons] at hchain
    obtain ⟨⟨hadj1, hadj2⟩, hchain'⟩ := hchain
    obtain ⟨hne, hH, hL⟩ := hT l (by simp)
    obtain ⟨hne2, hH2, hL2⟩ := hT l₂ (by simp)
    have ht2 : trim l₂.text = l₂.text := trim_eq_self hH2 hL2
    have hov : (l.text ++ ' ' :: l₂.text).length > m := by
      simp only [List.length_append, List.length_cons]
      omega
    have hblank : ¬(trim l₂.text = []) := by rw [ht2]; exact hne2
    have hcond : ((if l.text = [] then trim l₂.text
        else l.text ++ ' ' :: trim l₂.text).length > m ∧ l.text ≠ []) := by
      rw [if_neg hne, ht2]; exact ⟨hov, hne⟩
    have hstep : mergeGo m (lastStop (l :: l₂ :: rest') d) (l₂ :: rest') l.text l.start
        = ⟨l.start, l₂.start, trim l.text⟩ ::
          mergeGo m (lastStop (l :: l₂ :: rest') d) rest' l₂.text l₂.start := by
      simp only [mergeGo]
      rw [if_neg hblank, if_pos hcond, ht2]
    have hlast : lastStop (l :: l₂ :: rest') d = lastStop (l₂ :: rest') d := by
      simp [lastStop]
    rw [hstep, trim_eq_self hH hL, hlast,
      ih l₂ ⟨hchain', fun x hx => hT x (List.mem_cons_of_mem _ hx)⟩]
    have hl : (⟨l.start, l₂.start, l.text⟩ : Seg) = l := by rw [← hadj1]
    rw [hl]

theorem good_mergeSegments (segs : List Seg) (m : Nat) :
    Good m (mergeSegments segs m) := by
  unfold mergeSegments
  exact mergeGo_good_nilbuf _ _ _ _

theorem mergeSegments_fix (m : Nat) : ∀ L, Good m L → mergeSegments L m = L := by
  intro L hG
  cases L with
  | nil => rfl
  | cons l rest =>
    obtain ⟨hchain, hT⟩ := hG
    obtain ⟨hne, hH, hL⟩ := hT l (by simp)
    have ht : trim l.text = l.text := trim_eq_self hH hL
    have hstep : mergeSegments (l :: rest) m
        = mergeGo m (lastStop (l :: rest) (l.start + 3)) rest l.text l.start := by
      simp [mergeSegments, mergeGo, ht, hne]
    rw [hstep, mergeGo_fix m _ rest l ⟨hchain, hT⟩]

/-- Claim C5: for every list of caption segments and every maxLineChars
bound, applying `mergeSegments` to its own output with the same
maxLineChars returns that output unchanged — the re-merge is a no-op on
both the texts and the start/end times of the lines. -/
theorem mergeSegments_idempotent (segs : List Seg) (m : Nat) :
    mergeSegments (mergeSegments segs m) m = mergeSegments segs m :=
  mergeSegments_fix m _ (good_mergeSegments segs m)

/-! ### Width of the produced lines

A buffer is only ever (a) empty, (b) within the bound, or (c) exactly one
trimmed source chunk — the code never splits a chunk, so the only way a
line can exceed the bound is to be a single over-long segment text. -/

theorem mergeGo_linewidth (m : Nat) (le : Int) (src : List Seg) :
    ∀ (segs : List Seg) (buf : List Char) (start : Int),
      (buf = [] ∨ buf.length ≤ m ∨ ∃ s ∈ src, buf = trim s.text) →
      (∀ x ∈ segs, x ∈ src) →
      ∀ l ∈ mergeGo m le segs buf start,
        l.text.length ≤ m ∨ ∃ s ∈ src, l.text = trim s.text := by
  intro segs
  induction segs with
  | nil =>
    intro buf start hinv hsub l hl
    by_cases hb : buf = []
    · simp [mergeGo, hb] at hl
    · simp only [mergeGo, if_neg hb, List.mem_singleton] at hl
      subst hl
      rcases hinv with h | h | ⟨s, hs, h⟩
      · exact absurd h hb
      · exact Or.inl (le_trans (length_trim_le _) h)
      · exact Or.inr ⟨s, hs, by rw [h, trim_trim]⟩
  | cons s rest ih =>
    intro buf start hinv hsub l hl
    have hsub' : ∀ x ∈ rest, x ∈ src := fun x hx => hsub x (List.mem_cons_of_mem _ hx)
    have hss : s ∈ src := hsub s (by simp)
    by_cases hc : trim s.text = []
    · rw [show mergeGo m le (s :: rest) buf start = mergeGo m le rest buf start from by
        simp only [mergeGo]; rw [if_pos hc]] at hl
      exact ih buf start hinv hsub' l hl
    · by_cases hb : buf = []
      · subst hb
        rw [show mergeGo m le (s :: rest) [] start
            = mergeGo m le rest (trim s.text) start from by simp [mergeGo, hc]] at hl
        exact ih _ start (Or.inr (Or.inr ⟨s, hss, rfl⟩)) hsub' l hl
      · by_cases hov : (buf ++ ' ' :: trim s.text).length > m
        · have hcond : ((if buf = [] then trim s.text
              else buf ++ ' ' :: trim s.text).length > m ∧ buf ≠ []) := by
            rw [if_neg hb]; exact ⟨hov, hb⟩
          rw [show mergeGo m le (s :: rest) buf start
              = ⟨start, s.start, trim buf⟩ :: mergeGo m le rest (trim s.text) s.start from by
            simp only [mergeGo]; rw [if_neg hc, if_pos hcond]] at hl
          rcases List.mem_cons.mp hl with h | h
          · subst h
            rcases hinv with h' | h' | ⟨s', hs', h'⟩
            · exact absurd h' hb
            · exact Or.inl (le_trans (length_trim_le _) h')
            · exact Or.inr ⟨s', hs', by show trim buf = trim s'.text; rw [h', trim_trim]⟩
          · exact ih _ s.start (Or.inr (Or.inr ⟨s, hss, rfl⟩)) hsub' l h
        · have hcond : ¬((if buf = [] then trim s.text
              else buf ++ ' ' :: trim s.text).length > m ∧ buf ≠ []) := by
            rw [if_neg hb]; exact fun h => hov h.1
          rw [show mergeGo m le (s :: rest) buf start
              = mergeGo m le rest (buf ++ ' ' :: trim s.text) start from by
            simp only [mergeGo]; rw [if_neg hc, if_neg hcond, if_neg hb]] at hl
          have hlen : (buf ++ ' ' :: trim s.text).length ≤ m := by omega
          exact ih _ start (Or.inr (Or.inl hlen)) hsub' l hl

/-- Claim C6 (amended): no CaptionLine text produced by mergeSegments
exceeds maxLineChars, except when the line is a single source segment's
trimmed text that alone exceeds the bound — the merger concatenates whole
segments and never splits one, so the exception is per segment, not per
word. -/
theorem mergeSegments_line_width (segs : List Seg) (m : Nat) :
    ∀ l ∈ mergeSegments segs m,
      l.text.length ≤ m ∨ ∃ s ∈ segs, l.text = trim s.text := by
  intro l hl
  unfold mergeSegments at hl
  exact mergeGo_linewidth m _ segs segs [] _ (Or.inl rfl) (fun x hx => hx) l hl

/-- Witness instantiating mergeSegments_line_width at a concrete input. -/
theorem mergeSegments_line_width_witness :
    ((⟨0, 1, "aa".toList⟩ : Seg) ∈ mergeSegments [⟨0, 1, "aa".toList⟩] 42) ∧
    ((⟨0, 1, "aa".toList⟩ : Seg).text.length ≤ 42 ∨
      ∃ s ∈ [(⟨0, 1, "aa".toList⟩ : Seg)], (⟨0, 1, "aa".toList⟩ : Seg).text = trim s.text) :=
  ⟨by decide, mergeSegments_line_width _ 42 _ (by decide)⟩

/-- Claim C6 counterexample: on segments [{0,1,"aa bb"}] with maxLineChars
4 the produced line text "aa bb" has length 5 > 4, although every single
source word ("aa", "bb") is within the bound; the claim's exception (only
a single over-long word may exceed the bound) does not hold of the code,
whose merge unit is the whole segment. -/
theorem mergeSegments_word_bound_fails :
    (∃ l ∈ mergeSegments [⟨0, 1, "aa bb".toList⟩] 4, 4 < l.text.length) ∧
    (∀ s ∈ [(⟨0, 1, "aa bb".toList⟩ : Seg)], ∀ w ∈ words s.text, w.length ≤ 4) := by
  decide

/-! ## escDrawtext (src/unnamed/part_004, lines 530-535)

```js
function escDrawtext(s) {
  return (s || '')
    .replace(/:/g, '\\:')
    .replace(/'/g, "\\'")
    .replace(/\n/g, ' ')
}
```

Each `.replace(/c/g, r)` with a single-character pattern is the map
`replaceChar c r`; `escDrawtext` chains the three passes in source order. -/

def replaceChar (target : Char) (repl : List Char) : List Char → List Char
  | [] => []
  | c :: t => (if c = target then repl else [c]) ++ replaceChar target repl t

def escDrawtext (s : List Char) : List Char :=
  replaceChar '\n' [' '] (replaceChar '\'' ['\\', '\''] (replaceChar ':' ['\\', ':'] s))

/-- Combined per-character effect of the three sequential replacements
(the replacement texts of the first two passes are never rewritten by the
later passes). -/
def escChar (c : Char) : List Char :=
  if c = ':' then ['\\', ':']
  else if c = '\'' then ['\\', '\'']
  else if c = '\n' then [' ']
  else [c]

/-- Scans a serialized drawtext argument: does character c occur outside a
backslash escape?  A backslash followed by another character forms an
escape pair; a trailing backslash is itself unescaped. -/
def unescapedOccurs (c : Char) : List Char → Bool
  | [] => false
  | x :: rest =>
    if x = '\\' then
      match rest with
      | [] => c == '\\'
      | _ :: rest' => unescapedOccurs c rest'
    else
      (x == c) || unescapedOccurs c rest

theorem replaceChar_append (target : Char) (repl : List Char) (a b : List Char) :
    replaceChar target repl (a ++ b)
      = replaceChar target repl a ++ replaceChar target repl b := by
  induction a with
  | nil => rfl
  | cons c t ih => simp [replaceChar, ih]

theorem escDrawtext_nil : escDrawtext [] = [] := rfl

theorem escDrawtext_cons (c : Char) (s : List Char) :
    escDrawtext (c :: s) = escChar c ++ escDrawtext s := by
  by_cases h1 : c = ':'
  · subst h1; simp [escDrawtext, replaceChar, replaceChar_append, escChar]
  · by_cases h2 : c = '\''
    · subst h2; simp [escDrawtext, replaceChar, replaceChar_append, escChar]
    · by_cases h3 : c = '\n'
      · subst h3; simp [escDrawtext, replaceChar, replaceChar_append, escChar]
      · simp [escDrawtext, replaceChar, replaceChar_append, escChar, h1, h2, h3]

theorem unesc_esc (c x : Char) (rest : List Char) :
    unescapedOccurs c ('\\' :: x :: rest) = unescapedOccurs c rest := by
  rw [unescapedOccurs.eq_def]
  dsimp only
  rw [if_pos rfl]

theorem unesc_other (c x : Char) (rest : List Char) (hx : x ≠ '\\') :
    unescapedOccurs c (x :: rest) = ((x == c) || unescapedOccurs c rest) := by
  rw [unescapedOccurs.eq_def]
  dsimp only
  rw [if_neg hx]

theorem unesc_escChar (c₀ c : Char) (hc₀ : c₀ = ':' ∨ c₀ = '\'' ∨ c₀ = '\n')
    (hc : c ≠ '\\') (E : List Char) :
    unescapedOccurs c₀ (escChar c ++ E) = unescapedOccurs c₀ E := by
  by_cases h1 : c = ':'
  · subst h1
    rw [show escChar ':' = ['\\', ':'] from rfl]
    exact unesc_esc _ _ _
  · by_cases h2 : c = '\''
    · subst h2
      rw [show escChar '\'' = ['\\', '\''] from rfl]
      exact unesc_esc _ _ _
    · by_cases h3 : c = '\n'
      · subst h3
        rw [show escChar '\n' = [' '] from rfl, List.singleton_append,
          unesc_other _ _ _ (by decide)]
        rcases hc₀ with h | h | h <;> subst h <;> rfl
      · rw [show escChar c = [c] from by simp [escChar, h1, h2, h3],
          List.singleton_append, unesc_other _ _ _ hc]
        have : (c == c₀) = false := by
          rcases hc₀ with h | h | h <;> subst h <;> simp [h1, h2, h3]
        rw [this, Bool.false_or]

theorem newline_not_mem_escChar (c : Char) : '\n' ∉ escChar c := by
  unfold escChar
  split_ifs with h1 h2 h3
  · decide
  · decide
  · decide
  · simp only [List.mem_singleton]
    exact fun h => h3 h.symm

/-- Claim C8 (amended): escDrawtext backslash-escapes colons and single
quotes and replaces newlines by spaces, so any input that contains no
backslash serializes with no unescaped colon, no unescaped quote, and no
newline at all.  It does not escape backslashes themselves, so inputs
containing a backslash are not protected (see the counterexample). -/
theorem escDrawtext_escapes (s : List Char) (hs : '\\' ∉ s) :
    unescapedOccurs ':' (escDrawtext s) = false ∧
    unescapedOccurs '\'' (escDrawtext s) = false ∧
    '\n' ∉ escDrawtext s := by
  induction s with
  | nil => exact ⟨rfl, rfl, by simp [escDrawtext_nil]⟩
  | cons c t ih =>
    have hc : c ≠ '\\' := fun h => hs (by rw [h]; exact List.mem_cons_self _ _)
    have ht : '\\' ∉ t := fun h => hs (List.mem_cons_of_mem _ h)
    obtain ⟨ih1, ih2, ih3⟩ := ih ht
    rw [escDrawtext_cons]
    refine ⟨?_, ?_, ?_⟩
    · rw [unesc_escChar _ _ (Or.inl rfl) hc]; exact ih1
    · rw [unesc_escChar _ _ (Or.inr (Or.inl rfl)) hc]; exact ih2
    · rw [List.mem_append]
      exact fun h => h.elim (newline_not_mem_escChar c) ih3

/-- Witness instantiating escDrawtext_escapes at a concrete input. -/
theorem escDrawtext_escapes_witness :
    ('\\' ∉ ([':', '\'', '\n', 'x'] : List Char)) ∧
    (unescapedOccurs ':' (escDrawtext [':', '\'', '\n', 'x']) = false ∧
     unescapedOccurs '\'' (escDrawtext [':', '\'', '\n', 'x']) = false ∧
     '\n' ∉ escDrawtext [':', '\'', '\n', 'x']) :=
  ⟨by decide, escDrawtext_escapes _ (by decide)⟩

/-- Claim C8 counterexample: escDrawtext leaves a lone backslash unchanged
(it is not escaped or otherwise neutralized), and on the input "\:" the
output "\\:" contains an unescaped colon delimiter — the backslash pairs
with the inserted escape, exposing the colon. -/
theorem escDrawtext_backslash_unescaped :
    escDrawtext ['\\'] = ['\\'] ∧
    unescapedOccurs ':' (escDrawtext ['\\', ':']) = true := by
  decide

/-- Claim C3: for every natural number n, the retry delay `backoff(n)`
equals `min(60000, 2000 * 2^n)` milliseconds; in particular
`backoff(0)=2000`, `backoff(1)=4000`, `backoff(2)=8000` and
`backoff(6)=60000` (the cap). -/
theorem backoff_formula :
    (∀ n, backoffMs n = min 60000 (2000 * 2 ^ n)) ∧
    backoffMs 0 = 2000 ∧ backoffMs 1 = 4000 ∧
    backoffMs 2 = 8000 ∧ backoffMs 6 = 60000 :=
  ⟨fun _ => rfl, by decide, by decide, by decide, by decide⟩

/-! ## The durable video job queue

Sources: `src/server.js` lines 94-105 (storage), 229-230 (retry policy),
233-247 (enqueue), 261-293 (worker `processVideoOnce`);
`src/unnamed/part_004` lines 408-426 (`POST /api/video/process-now`).

`JobStatus` lists the five status strings; `done` and `error` are the
terminal ones.  `VideoJob` is the record created on enqueue
(`{id, filename, status:'queued', attempts:0, nextTryAt:now, createdAt:now}`),
later extended with `output`/`error`.  `Store` is the persisted document
`{queue: [id,...], items: {id: record}}`; `lookupA`/`insertA` give the
JavaScript object-map semantics of `jobs.items`. -/

inductive JobStatus where
  | queued
  | processing
  | retry
  | done
  | error
deriving DecidableEq, Repr

structure VideoJob where
  id : String
  filename : String
  status : JobStatus
  attempts : Nat
  nextTryAt : Int
  createdAt : Int
  output : Option String := none
  error : Option String := none
deriving DecidableEq, Repr

def lookupA {α : Type} (k : String) : List (String × α) → Option α
  | [] => none
  | (k', v) :: t => if k' = k then some v else lookupA k t

def insertA {α : Type} (k : String) (v : α) : List (String × α) → List (String × α)
  | [] => [(k, v)]
  | (k', v') :: t => if k' = k then (k, v) :: t else (k', v') :: insertA k v t

theorem lookupA_insertA {α : Type} (k k' : String) (v : α) (l : List (String × α)) :
    lookupA k' (insertA k v l) = if k = k' then some v else lookupA k' l := by
  induction l with
  | nil => simp [lookupA, insertA]
  | cons p t ih =>
    obtain ⟨a, b⟩ := p
    by_cases hak : a = k
    · subst hak
      simp only [insertA, if_pos rfl, lookupA]
      by_cases h : a = k'
      · simp [h]
      · simp [h]
    · simp only [insertA, if_neg hak, lookupA, ih]
      by_cases h : a = k'
      · subst h
        rw [if_pos rfl, if_neg (fun hh : k = a => hak hh.symm), if_pos rfl]
      · simp [h]

structure Store where
  queue : List String
  items : List (String × VideoJob)
deriving DecidableEq, Repr

/-- Model of the enqueue route `POST /api/generate-video`. -/
def enqueueVideo (now : Int) (id filename : String) (s : Store) : Store :=
  { queue := s.queue ++ [id],
    items := insertA id
      { id := id, filename := filename, status := .queued, attempts := 0,
        nextTryAt := now, createdAt := now } s.items }

/-- The worker's scan predicate:
`j && (j.status==='queued' || j.status==='retry') && (j.nextTryAt||0) <= now`
(`nextTryAt` is always set on video jobs, so the `||0` default never
applies reachably). -/
def eligibleB (now : Int) (items : List (String × VideoJob)) (id : String) : Bool :=
  match lookupA id items with
  | some j => (decide (j.status = .queued) || decide (j.status = .retry))
      && decide (j.nextTryAt ≤ now)
  | none => false

/-- `queue.findIndex(...)` followed by `queue.splice(idx,1)` is modelled by
splitting the queue at the first matching id: the result is
`(prefix, found id, suffix)`, with removal being `prefix ++ suffix`. -/
def findEligible (p : String → Bool) :
    List String → Option (List String × String × List String)
  | [] => none
  | x :: xs =>
    if p x then some ([], x, xs)
    else
      match findEligible p xs with
      | some (pre, y, post) => some (x :: pre, y, post)
      | none => none

theorem findEligible_spec (p : String → Bool) :
    ∀ l pre x post, findEligible p l = some (pre, x, post) →
      l = pre ++ x :: post ∧ p x = true := by
  intro l
  induction l with
  | nil => intro pre x post h; simp [findEligible] at h
  | cons a t ih =>
    intro pre x post h
    by_cases hp : p a
    · simp only [findEligible, if_pos hp, Option.some.injEq, Prod.mk.injEq] at h
      obtain ⟨h1, h2, h3⟩ := h
      subst h1; subst h2; subst h3
      exact ⟨rfl, hp⟩
    · simp only [findEligible, if_neg hp] at h
      cases hfe : findEligible p t with
      | none => rw [hfe] at h; exact absurd h (by simp)
      | some val =>
        obtain ⟨pre', y, post'⟩ := val
        rw [hfe] at h
        simp only [Option.some.injEq, Prod.mk.injEq] at h
        obtain ⟨h1, h2, h3⟩ := h
        subst h1; subst h2; subst h3
        obtain ⟨hl, hx⟩ := ih _ _ _ hfe
        exact ⟨by rw [hl]; rfl, hx⟩

/-- Model of one worker tick (`processVideoOnce`, src/server.js 261-293).

The external render (`renderSpectralVideo`) is the parameter `render`,
returning the uploaded output key or a thrown error.  `nowScan` is the
`Date.now()` of the eligibility scan, `nowFail` the `Date.now()` taken in
the catch handler when computing the next retry time.  The returned store
is the finally persisted document (the tick also persists the
mark-processing state and, on the success path, a transient done-in-queue
state before the splice; both are overwritten by this final write). -/
def processVideoOnce (nowScan nowFail : Int) (render : String → Except String String)
    (s : Store) : Store :=
  match findEligible (eligibleB nowScan s.items) s.queue with
  | none => s
  | some (pre, id, post) =>
    match lookupA id s.items with
    | none => s
    | some j =>
      match render j.filename with
      | .ok outKey =>
          { queue := pre ++ post,
            items := insertA id
              { j with status := .done, output := some outKey } s.items }
      | .error e =>
          if MAX_RETRIES ≤ j.attempts + 1 then
            { queue := pre ++ post,
              items := insertA id
                { j with status := .error, attempts := j.attempts + 1,
                         error := some e } s.items }
          else
            { queue := s.queue,
              items := insertA id
                { j with status := .retry, attempts := j.attempts + 1,
                         nextTryAt := nowFail + (backoffMs (j.attempts + 1) : Int) } s.items }

/-- Model of the force-process endpoint `POST /api/video/process-now`
(src/unnamed/part_004, lines 408-426).  It looks the job up by the given
id (unlike the worker it does not consult the queue), marks it processing,
renders, and on success sets `done`/`output` WITHOUT touching `queue`; on
failure it does the same attempts/backoff bookkeeping as the worker,
filtering the id out of the queue on the terminal branch. -/
def processNow (now : Int) (render : String → Except String String) (id : String)
    (s : Store) : Store :=
  match lookupA id s.items with
  | none => s
  | some job =>
    match render job.filename with
    | .ok outKey =>
        { queue := s.queue,
          items := insertA id
            { job with status := .done, output := some outKey } s.items }
    | .error e =>
        if MAX_RETRIES ≤ job.attempts + 1 then
          { queue := s.queue.filter (fun x => x ≠ id),
            items := insertA id
              { job with status := .error, attempts := job.attempts + 1,
                         error := some e } s.items }
        else
          { queue := s.queue,
            items := insertA id
              { job with status := .retry, attempts := job.attempts + 1,
                         error := some e,
                         nextTryAt := now + (backoffMs (job.attempts + 1) : Int) } s.items }

/-- Statuses the spec calls non-terminal: queued, processing, retry. -/
def isActive : JobStatus → Bool
  | .queued => true
  | .processing => true
  | .retry => true
  | .done => false
  | .error => false

/-- The job-store invariant of spec section 3: an id appears in `queue`
iff its record in `items` has a non-terminal status (ids without a record
never appear in `queue`, and the queue holds no duplicates). -/
def InvStore (s : Store) : Prop :=
  s.queue.Nodup ∧
  (∀ id, id ∈ s.queue → ∃ j, lookupA id s.items = some j ∧ isActive j.status = true) ∧
  (∀ id j, lookupA id s.items = some j → isActive j.status = true → id ∈ s.queue)

theorem inv_empty : InvStore ⟨[], []⟩ := by
  refine ⟨List.nodup_nil, ?_, ?_⟩
  · intro id h; simp at h
  · intro id j h; simp [lookupA] at h

theorem inv_enqueue (now : Int) (id fn : String) (s : Store)
    (hInv : InvStore s) (hfresh : lookupA id s.items = none) :
    InvStore (enqueueVideo now id fn s) := by
  obtain ⟨hnd, h2, h3⟩ := hInv
  have hidq : id ∉ s.queue := by
    intro hmem
    obtain ⟨j, hj, -⟩ := h2 id hmem
    rw [hfresh] at hj
    exact absurd hj (by simp)
  refine ⟨?_, ?_, ?_⟩
  · rw [show (enqueueVideo now id fn s).queue = s.queue ++ [id] from rfl,
      List.nodup_append]
    exact ⟨hnd, List.nodup_singleton _,
      fun a ha hb => by simp at hb; subst hb; exact hidq ha⟩
  · intro k hk
    rw [show (enqueueVideo now id fn s).queue = s.queue ++ [id] from rfl,
      List.mem_append] at hk
    rcases hk with hk | hk
    · obtain ⟨j, hj, hact⟩ := h2 k hk
      have hkid : ¬(id = k) := by
        intro h; subst h
        rw [hfresh] at hj
        exact absurd hj (by simp)
      refine ⟨j, ?_, hact⟩
      show lookupA k (insertA id _ s.items) = some j
      rw [lookupA_insertA, if_neg hkid]
      exact hj
    · simp only [List.mem_singleton] at hk
      refine ⟨{ id := id, filename := fn, status := .queued, attempts := 0,
                nextTryAt := now, createdAt := now, output := none,
                error := none }, ?_, rfl⟩
      show lookupA k (insertA id _ s.items) = _
      rw [hk, lookupA_insertA, if_pos rfl]
  · intro k j hj hact
    rw [show (enqueueVideo now id fn s).items = insertA id _ s.items from rfl,
      lookupA_insertA] at hj
    show k ∈ s.queue ++ [id]
    by_cases hk : id = k
    · subst hk; exact List.mem_append_right _ (by simp)
    · rw [if_neg hk] at hj
      exact List.mem_append_left _ (h3 k j hj hact)

theorem inv_remove_terminal (s : Store) (pre post : List String) (id : String)
    (j' : VideoJob) (hq : s.queue = pre ++ id :: post)
    (hterm : isActive j'.status = false) (hInv : InvStore s) :
    InvStore ⟨pre ++ post, insertA id j' s.items⟩ := by
  obtain ⟨hnd, h2, h3⟩ := hInv
  rw [hq, List.nodup_middle, List.nodup_cons] at hnd
  obtain ⟨hnotin, hnd'⟩ := hnd
  refine ⟨hnd', ?_, ?_⟩
  · intro k hk
    have hkq : k ∈ s.queue := by
      rw [hq]
      rcases List.mem_append.mp hk with h | h
      · exact List.mem_append_left _ h
      · exact List.mem_append_right _ (List.mem_cons_of_mem _ h)
    have hkid : ¬(id = k) := fun h => by subst h; exact hnotin hk
    obtain ⟨jk, hjk, hact⟩ := h2 k hkq
    refine ⟨jk, ?_, hact⟩
    show lookupA k (insertA id j' s.items) = some jk
    rw [lookupA_insertA, if_neg hkid]
    exact hjk
  · intro k jk hjk hact
    rw [show (Store.mk (pre ++ post) (insertA id j' s.items)).items
        = insertA id j' s.items from rfl, lookupA_insertA] at hjk
    by_cases hk : id = k
    · subst hk
      rw [if_pos rfl] at hjk
      have hjj : jk = j' := Option.some.inj hjk.symm
      rw [hjj, hterm] at hact
      exact absurd hact (by decide)
    · rw [if_neg hk] at hjk
      have hks := h3 k jk hjk hact
      rw [hq] at hks
      show k ∈ pre ++ post
      rcases List.mem_append.mp hks with h | h
      · exact List.mem_append_left _ h
      · rcases List.mem_cons.mp h with h | h
        · exact absurd h.symm hk
        · exact List.mem_append_right _ h

theorem inv_update_active (s : Store) (id : String) (j' : VideoJob)
    (hact : isActive j'.status = true) (hin : id ∈ s.queue) (hInv : InvStore s) :
    InvStore ⟨s.queue, insertA id j' s.items⟩ := by
  obtain ⟨hnd, h2, h3⟩ := hInv
  refine ⟨hnd, ?_, ?_⟩
  · intro k hk
    by_cases hkid : id = k
    · refine ⟨j', ?_, hact⟩
      show lookupA k (insertA id j' s.items) = some j'
      rw [lookupA_insertA, if_pos hkid]
    · obtain ⟨jk, hjk, ha⟩ := h2 k hk
      refine ⟨jk, ?_, ha⟩
      show lookupA k (insertA id j' s.items) = some jk
      rw [lookupA_insertA, if_neg hkid]
      exact hjk
  · intro k jk hjk ha
    rw [show (Store.mk s.queue (insertA id j' s.items)).items
        = insertA id j' s.items from rfl, lookupA_insertA] at hjk
    by_cases hkid : id = k
    · show k ∈ s.queue
      rw [← hkid]
      exact hin
    · rw [if_neg hkid] at hjk
      exact h3 k jk hjk ha

/-- Claim C1 (amended): for the video job store, the invariant "an id
appears in `queue` iff its record in `items` has a non-terminal status
(queued, processing or retry)" is preserved by enqueue (with a fresh id)
and by every complete worker tick (`processVideoOnce`), on the success,
retry and terminal-failure paths alike.  The force-process endpoint does
NOT preserve it: its success path never removes the id from `queue` (see
the counterexample). -/
theorem jobstore_invariant_preserved :
    (∀ (now : Int) (id fn : String) (s : Store), InvStore s →
      lookupA id s.items = none → InvStore (enqueueVideo now id fn s)) ∧
    (∀ (nowScan nowFail : Int) (render : String → Except String String) (s : Store),
      InvStore s → InvStore (processVideoOnce nowScan nowFail render s)) := by
  refine ⟨fun now id fn s h1 h2 => inv_enqueue now id fn s h1 h2, ?_⟩
  intro nowScan nowFail render s hInv
  cases hfe : findEligible (eligibleB nowScan s.items) s.queue with
  | none =>
    have hstep : processVideoOnce nowScan nowFail render s = s := by
      unfold processVideoOnce
      rw [hfe]
    rw [hstep]
    exact hInv
  | some val =>
    obtain ⟨pre, id, post⟩ := val
    obtain ⟨hq, -⟩ := findEligible_spec _ _ _ _ _ hfe
    cases hl : lookupA id s.items with
    | none =>
      have hstep : processVideoOnce nowScan nowFail render s = s := by
        unfold processVideoOnce
        rw [hfe]
        dsimp only
        rw [hl]
      rw [hstep]
      exact hInv
    | some j =>
      have hin : id ∈ s.queue := by
        rw [hq]; exact List.mem_append_right _ (List.mem_cons_self _ _)
      cases hr : render j.filename with
      | ok outKey =>
        have hstep : processVideoOnce nowScan nowFail render s
            = { queue := pre ++ post,
                items := insertA id
                  { j with status := .done, output := some outKey } s.items } := by
          unfold processVideoOnce
          rw [hfe]
          dsimp only
          rw [hl]
          dsimp only
          rw [hr]
        rw [hstep]
        exact inv_remove_terminal s pre post id _ hq rfl hInv
      | error e =>
        by_cases hm : MAX_RETRIES ≤ j.attempts + 1
        · have hstep : processVideoOnce nowScan nowFail render s
              = { queue := pre ++ post,
                  items := insertA id
                    { j with status := .error, attempts := j.attempts + 1,
                             error := some e } s.items } := by
            unfold processVideoOnce
            rw [hfe]
            dsimp only
            rw [hl]
            dsimp only
            rw [hr]
            dsimp only
            rw [if_pos hm]
          rw [hstep]
          exact inv_remove_terminal s pre post id _ hq rfl hInv
        · have hstep : processVideoOnce nowScan nowFail render s
              = { queue := s.queue,
                  items := insertA id
                    { j with status := .retry, attempts := j.attempts + 1,
                             nextTryAt := nowFail + (backoffMs (j.attempts + 1) : Int) } s.items } := by
            unfold processVideoOnce
            rw [hfe]
            dsimp only
            rw [hl]
            dsimp only
            rw [hr]
            dsimp only
            rw [if_neg hm]
          rw [hstep]
          exact inv_update_active s id _ rfl hin hInv

/-- Witness instantiating jobstore_invariant_preserved: the invariant
holds after enqueueing into the empty store and after running one worker
tick with a successful render on the result. -/
theorem jobstore_invariant_preserved_witness :
    InvStore (enqueueVideo 0 ("a") ("f.mp3") ⟨[], []⟩) ∧
    InvStore (processVideoOnce 0 0 (fun _ => Except.ok ("k"))
      (enqueueVideo 0 ("a") ("f.mp3") ⟨[], []⟩)) :=
  ⟨jobstore_invariant_preserved.1 0 ("a") ("f.mp3") ⟨[], []⟩ inv_empty rfl,
   jobstore_invariant_preserved.2 0 0 _ _
     (jobstore_invariant_preserved.1 0 ("a") ("f.mp3") ⟨[], []⟩ inv_empty rfl)⟩

/-- Claim C1 counterexample: enqueue one job and force-process it with a
successful render.  The resulting persisted document holds the record in
terminal status `done` while its id is still in `queue`, so the claimed
invariant fails after the force-process operation. -/
theorem forceprocess_breaks_invariant :
    (lookupA ("a") (processNow 0 (fun _ => Except.ok ("video/f.mp4")) ("a")
          (enqueueVideo 0 ("a") ("f.mp3") ⟨[], []⟩)).items
        = some { id := "a", filename := "f.mp3", status := .done, attempts := 0,
                 nextTryAt := 0, createdAt := 0,
                 output := some ("video/f.mp4"), error := none }) ∧
    ("a") ∈ (processNow 0 (fun _ => Except.ok ("video/f.mp4")) ("a")
        (enqueueVideo 0 ("a") ("f.mp3") ⟨[], []⟩)).queue ∧
    ¬ InvStore (processNow 0 (fun _ => Except.ok ("video/f.mp4")) ("a")
        (enqueueVideo 0 ("a") ("f.mp3") ⟨[], []⟩)) := by
  refine ⟨by decide, by decide, ?_⟩
  intro h
  obtain ⟨-, h2, -⟩ := h
  obtain ⟨j, hj, hact⟩ := h2 ("a") (by decide)
  have hl : lookupA ("a") (processNow 0 (fun _ => Except.ok ("video/f.mp4")) ("a")
        (enqueueVideo 0 ("a") ("f.mp3") ⟨[], []⟩)).items
      = some { id := "a", filename := "f.mp3", status := .done, attempts := 0,
               nextTryAt := 0, createdAt := 0,
               output := some ("video/f.mp4"), error := none } := by decide
  rw [hl] at hj
  rw [(Option.some.inj hj).symm] at hact
  exact absurd hact (by decide)

/-- Always-failing render used for the retry scenario. -/
def bFail : String → Except String String := fun _ => Except.error ("boom")

/-- The store after three consecutive failing worker ticks on one enqueued
job (ticks at times 0, 4000 and 12000, each eligible). -/
def scenarioB : Store :=
  processVideoOnce 12000 12000 bFail
    (processVideoOnce 4000 4000 bFail
      (processVideoOnce 0 0 bFail
        (enqueueVideo 0 ("j1") ("f.mp3") ⟨[], []⟩)))

/-- Claim C2: when a render attempt fails during a worker tick, the worker
increments `attempts` by 1; if the incremented value reaches maxRetries
(3) it sets status error and removes the id from `queue`, otherwise it
sets status retry with `nextTryAt = now + backoff(attempts)` and leaves
the queue unchanged; the returned store is the document persisted in
either branch.  In particular (second conjunct) after 3 consecutive
simulated encoder failures the job ends with status error, attempts 3,
and its id absent from the (now empty) queue. -/
theorem worker_retry_bookkeeping :
    (∀ (nowScan nowFail : Int) (e : String) (s : Store) (pre post : List String)
        (id : String) (j : VideoJob),
      s.queue.Nodup →
      findEligible (eligibleB nowScan s.items) s.queue = some (pre, id, post) →
      lookupA id s.items = some j →
      (MAX_RETRIES ≤ j.attempts + 1 →
        lookupA id (processVideoOnce nowScan nowFail (fun _ => Except.error e) s).items
          = some { j with status := .error, attempts := j.attempts + 1,
                          error := some e } ∧
        (processVideoOnce nowScan nowFail (fun _ => Except.error e) s).queue
          = pre ++ post ∧
        id ∉ (processVideoOnce nowScan nowFail (fun _ => Except.error e) s).queue) ∧
      (j.attempts + 1 < MAX_RETRIES →
        lookupA id (processVideoOnce nowScan nowFail (fun _ => Except.error e) s).items
          = some { j with status := .retry, attempts := j.attempts + 1,
                          nextTryAt := nowFail + (backoffMs (j.attempts + 1) : Int) } ∧
        (processVideoOnce nowScan nowFail (fun _ => Except.error e) s).queue
          = s.queue)) ∧
    (lookupA ("j1") scenarioB.items
        = some { id := "j1", filename := "f.mp3", status := .error, attempts := 3,
                 nextTryAt := 12000, createdAt := 0, output := none,
                 error := some ("boom") } ∧
      scenarioB.queue = []) := by
  constructor
  · intro nowScan nowFail e s pre post id j hnd hfe hl
    obtain ⟨hq, -⟩ := findEligible_spec _ _ _ _ _ hfe
    have hnotin : id ∉ pre ++ post := by
      rw [hq, List.nodup_middle, List.nodup_cons] at hnd
      exact hnd.1
    have hstep : processVideoOnce nowScan nowFail (fun _ => Except.error e) s
        = if MAX_RETRIES ≤ j.attempts + 1 then
            { queue := pre ++ post,
              items := insertA id
                { j with status := .error, attempts := j.attempts + 1,
                         error := some e } s.items }
          else
            { queue := s.queue,
              items := insertA id
                { j with status := .retry, attempts := j.attempts + 1,
                         nextTryAt := nowFail + (backoffMs (j.attempts + 1) : Int) } s.items } := by
      unfold processVideoOnce
      rw [hfe]
      dsimp only
      rw [hl]
    rw [hstep]
    constructor
    · intro hm
      rw [if_pos hm]
      exact ⟨by rw [show (Store.mk (pre ++ post) _).items = insertA id _ s.items from rfl,
          lookupA_insertA, if_pos rfl], rfl, hnotin⟩
    · intro hm
      rw [if_neg (by omega)]
      exact ⟨by rw [show (Store.mk s.queue _).items = insertA id _ s.items from rfl,
          lookupA_insertA, if_pos rfl], rfl⟩
  · constructor
    · decide
    · decide

/-- Witness instantiating the failure branch of worker_retry_bookkeeping:
one failing tick on a freshly enqueued job yields status retry, attempts
1 and nextTryAt 0 + backoff(1), with the queue unchanged. -/
theorem worker_retry_bookkeeping_witness :
    lookupA ("j1") (processVideoOnce 0 0 (fun _ => Except.error ("boom"))
        (enqueueVideo 0 ("j1") ("f.mp3") ⟨[], []⟩)).items
      = some { id := "j1", filename := "f.mp3", status := .retry, attempts := 1,
               nextTryAt := 0 + (backoffMs 1 : Int), createdAt := 0,
               output := none, error := none } ∧
    (processVideoOnce 0 0 (fun _ => Except.error ("boom"))
        (enqueueVideo 0 ("j1") ("f.mp3") ⟨[], []⟩)).queue
      = (enqueueVideo 0 ("j1") ("f.mp3") ⟨[], []⟩).queue :=
  (worker_retry_bookkeeping.1 0 0 ("boom")
      (enqueueVideo 0 ("j1") ("f.mp3") ⟨[], []⟩) [] [] ("j1")
      { id := "j1", filename := "f.mp3", status := .queued, attempts := 0,
        nextTryAt := 0, createdAt := 0 }
      (by decide) (by decide) (by decide)).2 (by decide)

/-! ## The shorts queue and worker (src/unnamed/part_004)

Sources: `POST /api/shorts/request` (lines 463-480), the worker
`workerOnce` (lines 655-669), and the output-key computation at the end of
`renderShortFromS3` (lines 606-611):

```js
app.post('/api/shorts/request', ...)
  jobs.items[id] = { id, filename, maxSeconds: ..., status: 'queued', createdAt: Date.now() }
  jobs.queue.push(id)

async function workerOnce(){
  const jobs = await readJobs()
  const next = jobs.queue.shift()
  if (!next) return
  await writeJobs(jobs)
  try{
    jobs.items[next].status = 'processing'; await writeJobs(jobs)
    const outKey = await renderShortFromS3(jobs.items[next].filename, jobs.items[next].maxSeconds)
    jobs.items[next].status = 'done'; jobs.items[next].output = outKey; await writeJobs(jobs)
  }catch(e){
    jobs.items[next].status = 'error'; jobs.items[next].error = String(e); await writeJobs(jobs)
  }
}

const base = path.basename(sourceKey).replace(/\.[^/.]+$/, '')
const outKey = `shorts/${base}-9x16.mp4`
```

Note the shorts record has no `attempts`/`nextTryAt` fields, and the
worker shifts the id off the queue and persists BEFORE the job reaches a
terminal status. -/

structure ShortsJob where
  id : String
  filename : List Char
  maxSeconds : Nat
  status : JobStatus
  createdAt : Int
  output : Option (List Char) := none
  error : Option String := none
deriving DecidableEq, Repr

structure SStore where
  queue : List String
  items : List (String × ShortsJob)
deriving DecidableEq, Repr

/-- Model of the enqueue route `POST /api/shorts/request`. -/
def enqueueShorts (id : String) (filename : List Char) (maxSeconds : Nat)
    (now : Int) (s : SStore) : SStore :=
  { queue := s.queue ++ [id],
    items := insertA id
      { id := id, filename := filename, maxSeconds := maxSeconds,
        status := .queued, createdAt := now } s.items }

/-- Model of one shorts worker tick (`workerOnce`): shift the queue head,
render it, record done/error.  `render` stands for `renderShortFromS3`.
The returned store is the final persisted document; when the shifted id
has no record the real code throws inside both the try and the catch
handler, so only the shift write survives. -/
def workerOnce (render : List Char → Nat → Except String (List Char))
    (s : SStore) : SStore :=
  match s.queue with
  | [] => s
  | next :: rest =>
    match lookupA next s.items with
    | none => { queue := rest, items := s.items }
    | some j =>
      match render j.filename j.maxSeconds with
      | .ok outKey =>
          { queue := rest,
            items := insertA next { j with status := .done, output := some outKey } s.items }
      | .error e =>
          { queue := rest,
            items := insertA next { j with status := .error, error := some e } s.items }

/-- The store as persisted at the moment the render of the head job is
started (after the tick's queue-shift write and mark-processing write):
this is the in-flight state the scheduler sees while a render is still
running. -/
def workerOnceInFlight (s : SStore) : SStore :=
  match s.queue with
  | [] => s
  | next :: rest =>
    match lookupA next s.items with
    | none => { queue := rest, items := s.items }
    | some j =>
        { queue := rest,
          items := insertA next { j with status := .processing } s.items }

/-- JavaScript `path.basename`: the part after the last slash. -/
def basename (s : List Char) : List Char :=
  (s.reverse.takeWhile (fun c => c ≠ '/')).reverse

/-- JavaScript `.replace(/\.[^/.]+$/, '')`: drop a final extension — a dot
followed by one or more characters none of which is a slash or a dot. -/
def stripExt (s : List Char) : List Char :=
  if (s.reverse.takeWhile (fun c => c ≠ '.')) ≠ [] ∧
     '/' ∉ (s.reverse.takeWhile (fun c => c ≠ '.')) ∧
     (s.reverse.dropWhile (fun c => c ≠ '.')) ≠ [] then
    (s.reverse.dropWhile (fun c => c ≠ '.')).tail.reverse
  else s

/-- The published key of a rendered short:
`shorts/${basename minus extension}-9x16.mp4`. -/
def shortsOutKey (sourceKey : List Char) : List Char :=
  "shorts/".toList ++ stripExt (basename sourceKey) ++ "-9x16.mp4".toList

/-- Claim C4 counterexample: with two queued jobs, take the store exactly
as persisted while job "a"'s render is in flight (a is processing and off
the queue, b still queued).  A timer tick firing from that state is NOT a
no-op: it starts — and here completes — a second render, of job "b",
while "a" is still mid-render.  No in-process execution guard exists in
the code. -/
theorem worker_tick_during_render_not_noop :
    (workerOnce (fun _ _ => Except.ok ("out.mp4".toList))
        (workerOnceInFlight
          (enqueueShorts ("b") ("audio/b.mp3".toList) 45 0
            (enqueueShorts ("a") ("audio/a.mp3".toList) 45 0 ⟨[], []⟩)))
      ≠ workerOnceInFlight
          (enqueueShorts ("b") ("audio/b.mp3".toList) 45 0
            (enqueueShorts ("a") ("audio/a.mp3".toList) 45 0 ⟨[], []⟩))) ∧
    ((lookupA ("a") (workerOnce (fun _ _ => Except.ok ("out.mp4".toList))
        (workerOnceInFlight
          (enqueueShorts ("b") ("audio/b.mp3".toList) 45 0
            (enqueueShorts ("a") ("audio/a.mp3".toList) 45 0 ⟨[], []⟩)))).items).map
      ShortsJob.status = some .processing) ∧
    ((lookupA ("b") (workerOnce (fun _ _ => Except.ok ("out.mp4".toList))
        (workerOnceInFlight
          (enqueueShorts ("b") ("audio/b.mp3".toList) 45 0
            (enqueueShorts ("a") ("audio/a.mp3".toList) 45 0 ⟨[], []⟩)))).items).map
      ShortsJob.status = some .done) := by
  refine ⟨by decide, by decide, by decide⟩

/-- Claim C4 (amended): the shorts worker has no in-flight guard — a tick
is a no-op exactly when the queue is empty.  Whenever any job remains in
the queue, a tick fired during a still-running render pops it and starts
a second concurrent render. -/
theorem worker_tick_noop_iff_queue_empty
    (render : List Char → Nat → Except String (List Char)) (s : SStore) :
    workerOnce render s = s ↔ s.queue = [] := by
  constructor
  · intro h
    cases hq : s.queue with
    | nil => rfl
    | cons next rest =>
      exfalso
      have hqueue : (workerOnce render s).queue = rest := by
        unfold workerOnce
        rw [hq]
        dsimp only
        cases lookupA next s.items with
        | none => rfl
        | some j =>
          dsimp only
          cases render j.filename j.maxSeconds with
          | ok k => rfl
          | error e => rfl
      rw [h, hq] at hqueue
      exact List.cons_ne_self next rest hqueue
  · intro h
    unfold workerOnce
    rw [h]

/-- Claim C7 counterexample: enqueue the shorts job for sourceKey
"audio/1700000000-test.mp3" and run the first tick with a successful
encoder.  The recorded output key is
"shorts/1700000000-test-9x16.mp4" — the code keeps the full basename
(timestamp prefix included) — not the claimed "shorts/test-9x16.mp4".
(The enqueue also stores no `attempts` field at all on shorts jobs: see
the `ShortsJob` record modelled field-for-field from the source.) -/
theorem scenario_a_output_key_mismatch :
    ((lookupA ("j1") (workerOnce (fun fn _ => Except.ok (shortsOutKey fn))
        (enqueueShorts ("j1") ("audio/1700000000-test.mp3".toList) 45 0
          ⟨[], []⟩)).items).map ShortsJob.output
      = some (some ("shorts/1700000000-test-9x16.mp4".toList))) ∧
    shortsOutKey ("audio/1700000000-test.mp3".toList)
      ≠ "shorts/test-9x16.mp4".toList := by
  refine ⟨by decide, by decide⟩

/-- Claim C7 (amended): enqueueing the shorts job for sourceKey
"audio/1700000000-test.mp3" with maxDurationSeconds 45 creates a record
with status queued (shorts records carry no attempts field), and after a
successful encoder run on the first tick the job has status done with
output key "shorts/1700000000-test-9x16.mp4". -/
theorem scenario_a_behavior :
    ((lookupA ("j1") (enqueueShorts ("j1") ("audio/1700000000-test.mp3".toList) 45 0
        ⟨[], []⟩).items).map ShortsJob.status = some .queued) ∧
    ((lookupA ("j1") (workerOnce (fun fn _ => Except.ok (shortsOutKey fn))
        (enqueueShorts ("j1") ("audio/1700000000-test.mp3".toList) 45 0
          ⟨[], []⟩)).items).map ShortsJob.status = some .done) ∧
    ((lookupA ("j1") (workerOnce (fun fn _ => Except.ok (shortsOutKey fn))
        (enqueueShorts ("j1") ("audio/1700000000-test.mp3".toList) 45 0
          ⟨[], []⟩)).items).map ShortsJob.output
      = some (some ("shorts/1700000000-test-9x16.mp4".toList))) := by
  refine ⟨by decide, by decide, by decide⟩

/-! ## Transcript segmenter degradation (src/unnamed/part_004, 495-507)

```js
async function transcribeWhisperOrMock(tmpAudioPath){
  if (!openai) {
    log('[shorts] OPENAI_API_KEY missing → mock transcription mode')
    return { text: '(mock) transcription disabled', segments: [{ start: 0, end: 30, text: '(mock)'}] }
  }
  const resp = await openai.audio.transcriptions.create({ ... })
  return resp
}
```

`openai` is null exactly when `OPENAI_API_KEY` is unset, i.e. the
speech-to-text collaborator is unavailable or misconfigured; the
collaborator itself is the optional function argument. -/

structure TrResult where
  text : List Char
  segments : List Seg
deriving DecidableEq, Repr

def transcribeWhisperOrMock
    (openai : Option (List Char → Except (List Char) TrResult))
    (tmpAudioPath : List Char) : Except (List Char) TrResult :=
  match openai with
  | none => Except.ok
      { text := "(mock) transcription disabled".toList,
        segments := [{ start := 0, stop := 30, text := "(mock)".toList }] }
  | some whisper => whisper tmpAudioPath

/-- Claim C9: whenever the speech-to-text collaborator is unavailable or
misconfigured (openai null), the transcript segmenter returns — it does
not raise — a result with exactly one stub segment spanning the default
window [0, 30], so the render job proceeds instead of aborting on
transcription absence. -/
theorem transcription_unavailable_stub (tmpAudioPath : List Char) :
    transcribeWhisperOrMock none tmpAudioPath
      = Except.ok { text := "(mock) transcription disabled".toList,
                    segments := [{ start := 0, stop := 30, text := "(mock)".toList }] } ∧
    ∃ r, transcribeWhisperOrMock none tmpAudioPath = Except.ok r
      ∧ r.segments.length = 1 := by
  refine ⟨rfl, _, rfl, rfl⟩

/-! ## Filter graph and the captionless fallback
(src/unnamed/part_004, lines 552-604)

The graph is built as an ordered list of stages: the four `baseFilters`
(background canvas, audio trim/split, spectrum visualization, overlay
with the brand bar) and, when captions are enabled and lines exist, one
gated drawtext stage per caption line.  On encoder failure of the full
graph the same run re-invokes the encoder once with `baseFilters` only
(`[vbase]`), and rejects only if that run fails too. -/

inductive Stage where
  | background
  | audioTrim (clipStart clipDur : Int)
  | spectrum
  | overlayBrand
  | caption (text : List Char) (startT endT : Int)
deriving DecidableEq, Repr

def isCaption : Stage → Bool
  | .caption _ _ _ => true
  | _ => false

/-- The four `baseFilters` stages, ending in the `[vbase]` label. -/
def baseFilters (clipStart clipDur : Int) : List Stage :=
  [.background, .audioTrim clipStart clipDur, .spectrum, .overlayBrand]

/-- One caption line's drawtext stage: clamp the window to the clip,
substitute `start + 2` for a falsy (0) end, skip lines entirely outside
the clip, gate by clip-local times, and escape the text. -/
def captionStage? (clipStart clipDur : Int) (ln : Seg) : Option Stage :=
  let s := max clipStart ln.start
  let e := min (clipStart + clipDur) (if ln.stop = 0 then s + 2 else ln.stop)
  if e ≤ clipStart ∨ clipStart + clipDur ≤ s then none
  else some (.caption (escDrawtext ln.text) (s - clipStart) (e - clipStart))

/-- The full captioned graph handed to the first encoder invocation. -/
def shortFilters (captionsEnabled : Bool) (clipStart clipDur : Int)
    (lines : List Seg) : List Stage :=
  baseFilters clipStart clipDur ++
    (if captionsEnabled && !lines.isEmpty then
      lines.filterMap (captionStage? clipStart clipDur)
    else [])

/-- The encoder orchestration of one `renderShortFromS3` run: invoke the
encoder on the full graph; on failure re-invoke it on the reduced
caption-free graph within the same run.  Returns the run's result
together with the list of graphs passed to the encoder, in invocation
order. -/
def renderShortAttempt (exec : List Stage → Except (List Char) Unit)
    (captionsEnabled : Bool) (clipStart clipDur : Int) (lines : List Seg) :
    Except (List Char) Unit × List (List Stage) :=
  match exec (shortFilters captionsEnabled clipStart clipDur lines) with
  | .ok _ => (Except.ok (), [shortFilters captionsEnabled clipStart clipDur lines])
  | .error _ => (exec (baseFilters clipStart clipDur),
      [shortFilters captionsEnabled clipStart clipDur lines, baseFilters clipStart clipDur])

/-- Claim C10: if the encoder invocation with the full captioned filter
graph fails, then within the same run — before any job-level bookkeeping —
the encoder is invoked a second time, with exactly the reduced caption-free
graph (background, audio trim/split, visualization, overlay with brand
bar, and nothing else), and the run's result is that of the reduced
invocation: the attempt is reported failed only if the reduced run also
fails. -/
theorem captionless_fallback (exec : List Stage → Except (List Char) Unit)
    (captionsEnabled : Bool) (clipStart clipDur : Int) (lines : List Seg)
    (e : List Char)
    (hfail : exec (shortFilters captionsEnabled clipStart clipDur lines)
      = Except.error e) :
    renderShortAttempt exec captionsEnabled clipStart clipDur lines
      = (exec (baseFilters clipStart clipDur),
         [shortFilters captionsEnabled clipStart clipDur lines,
          baseFilters clipStart clipDur]) ∧
    (∀ st ∈ baseFilters clipStart clipDur, isCaption st = false) ∧
    baseFilters clipStart clipDur
      = [.background, .audioTrim clipStart clipDur, .spectrum, .overlayBrand] := by
  refine ⟨?_, ?_, rfl⟩
  · unfold renderShortAttempt
    rw [hfail]
  · intro st hst
    simp only [baseFilters, List.mem_cons, List.mem_singleton] at hst
    rcases hst with h | h | h | h | h
    all_goals first
      | (subst h; rfl)
      | exact absurd h (by simp)

/-- Encoder that rejects any graph containing a caption stage (an ffmpeg
build without drawtext) and accepts caption-free graphs. -/
def execNoDrawtext : List Stage → Except (List Char) Unit :=
  fun g => if g.any isCaption then Except.error ("drawtext missing".toList)
    else Except.ok ()

/-- Witness instantiating captionless_fallback: with an encoder lacking
drawtext and one caption line, the run falls back to the caption-free
graph and succeeds. -/
theorem captionless_fallback_witness :
    renderShortAttempt execNoDrawtext true 0 30 [⟨0, 2, "hi".toList⟩]
      = (Except.ok (),
         [shortFilters true 0 30 [⟨0, 2, "hi".toList⟩], baseFilters 0 30]) := by
  have h := captionless_fallback execNoDrawtext true 0 30 [⟨0, 2, "hi".toList⟩]
    ("drawtext missing".toList) rfl
  rw [h.1]
  rfl

end Gargantuan
